import Mathlib

/-!
A shallow embedding of the cache simulator in `src/csim.c` and proofs of the
specification claims about it.

The C program simulates a set-associative cache with LRU replacement and
dirty-bit (write-back) accounting.  The embedding below translates the data
model and the three core routines:

* `Line`, `Cache` mirror the C structs (`struct Line`, `struct Cache`; the C
  `struct Set` is a bare wrapper around a line array and is modelled directly
  as `List Line`).  The derived fields `S = 2^s` and `B = 2^b` are computed in
  C `main` (`S = 1 << s`, `B = 1 << b`) before `makeCache` runs, so the
  embedding folds them into `makeCache`.
* `makeCache` mirrors `makeCache` plus `main`'s geometry assignments: it
  allocates `2^s` sets of `E` lines, all invalid/clean/tag 0/timestamp 0.
* `tagOf` / `setOf` mirror the address decomposition at the top of
  `isInCache`, including the literal double-shift computation (left shift
  wraps modulo `2^64` as C unsigned arithmetic does) and the explicit
  `s = 0` special case.
* `scanLoop` mirrors the `for` loop of `isInCache`: per line, first the hit
  test (`tagbits == tag && validbit`), then the first-invalid-line early exit,
  then the strict-`<` least-recently-used tracking with `oldest` initialised
  to the current instruction number and `index` to 0.
* `accessSet` mirrors the remainder of `isInCache`: the hit update and the
  miss path (fill on `cold`, evict on `full`), producing the five outcome
  flags `result[0..4]` as an `Outcome` record.
* `isInCache` glues decomposition, the per-set update, and the write-back of
  the updated set into the cache.
* `applyOutcome` / `replayFrom` mirror the statistics folding of
  `incrementStats`: per record, in order, `hits`, `misses`, `evictions`,
  `dirty_bytes += B`, then (`dirty_evictions += B; dirty_bytes -= B`), with
  the logical clock `linenum` incremented per record.

`dirty_bytes` is modelled as `Int` so that the subtraction in the
`evicted_dirty` case is the mathematical one; the proved invariant
`dirty_bytes = B * (number of valid dirty lines) ≥ 0` shows the C unsigned
counter never underflows, so the two models agree.
-/

namespace Csim

/-- `struct Line`: valid bit, tag bits, dirty bit, LRU timestamp. -/
structure Line where
  validbit : Bool
  tagbits : Nat
  dirtybit : Bool
  timestamp : Nat
deriving Repr, DecidableEq

/-- The initial line state written by `makeCache`. -/
def initLine : Line :=
  { validbit := false, tagbits := 0, dirtybit := false, timestamp := 0 }

instance : Inhabited Line := ⟨initLine⟩

/-- `struct Cache`: geometry fields and the sets-of-lines array. -/
structure Cache where
  S : Nat
  E : Nat
  B : Nat
  s : Nat
  b : Nat
  sets : List (List Line)
deriving Repr, DecidableEq

/-- `makeCache` together with `main`'s geometry assignments: `S = 2^s`,
`B = 2^b`, and `2^s` sets of `E` lines all initialised to `initLine`. -/
def makeCache (s E b : Nat) : Cache :=
  { S := 2 ^ s
    E := E
    B := 2 ^ b
    s := s
    b := b
    sets := List.replicate (2 ^ s) (List.replicate E initLine) }

/-- `tag = address >> (s + b)` (first lines of `isInCache`). -/
def tagOf (c : Cache) (address : Nat) : Nat :=
  address >>> (c.s + c.b)

/-- The set-index computation of `isInCache`:
`(address << (64 - s - b)) >> (64 - s)` in 64-bit unsigned arithmetic, with
the explicit `s = 0` override to `0`. -/
def setOf (c : Cache) (address : Nat) : Nat :=
  if c.s = 0 then 0
  else ((address <<< (64 - c.s - c.b)) % 2 ^ 64) >>> (64 - c.s)

/-- The five outcome flags `result[0..4]` of `isInCache`:
hit, miss, eviction, became dirty (`dirty_bytes` up), evicted dirty. -/
structure Outcome where
  hit : Bool
  miss : Bool
  eviction : Bool
  becameDirty : Bool
  evictedDirty : Bool
deriving Repr, DecidableEq

instance : Inhabited Outcome := ⟨⟨false, false, false, false, false⟩⟩

/-- Result of the scan loop in `isInCache`: a hit at slot `i` (early
`return`), the first invalid slot `i` (`notFull = true; index = i; break`),
or loop completion with `index` the LRU slot. -/
inductive ScanResult where
  | hit (i : Nat)
  | cold (i : Nat)
  | full (index : Nat)
deriving Repr, DecidableEq

/-- The `for` loop of `isInCache`.  `i` is the current slot number, `oldest`
and `index` the LRU tracking state (initially the instruction number `num`
and `0`). -/
def scanLoop : List Line → Nat → Nat → Nat → Nat → ScanResult
  | [], _, _, _, index => .full index
  | l :: rest, tag, i, oldest, index =>
    if l.tagbits = tag ∧ l.validbit = true then .hit i
    else if l.validbit = false then .cold i
    else if l.timestamp < oldest then scanLoop rest tag (i + 1) l.timestamp i
    else scanLoop rest tag (i + 1) oldest index

/-- The body of `isInCache` acting on the target set's line list: scan, then
either the hit update or the miss path (fill or evict), producing the updated
line list and the outcome flags. -/
def accessSet (lines : List Line) (tag : Nat) (op : Char) (num : Nat) :
    List Line × Outcome :=
  match scanLoop lines tag 0 num 0 with
  | .hit i =>
    let line := lines.getD i initLine
    if op = 'S' ∧ line.dirtybit = false then
      (lines.set i { line with timestamp := num, dirtybit := true },
        ⟨true, false, false, true, false⟩)
    else
      (lines.set i { line with timestamp := num },
        ⟨true, false, false, false, false⟩)
  | .cold i =>
    let line := lines.getD i initLine
    let filled :=
      { line with
        timestamp := num
        tagbits := tag
        validbit := true }
    if op = 'S' then
      (lines.set i { filled with dirtybit := true },
        ⟨false, true, false, true, false⟩)
    else
      (lines.set i filled, ⟨false, true, false, false, false⟩)
  | .full i =>
    let line := lines.getD i initLine
    let evicted :=
      { line with
        timestamp := num
        tagbits := tag
        dirtybit := false }
    if op = 'S' then
      (lines.set i { evicted with dirtybit := true },
        ⟨false, true, true, true, line.dirtybit⟩)
    else
      (lines.set i evicted, ⟨false, true, true, false, line.dirtybit⟩)

/-- `isInCache`: decompose the address, update the target set, return the
updated cache and the outcome flags. -/
def isInCache (address : Nat) (cache : Cache) (op : Char) (num : Nat) :
    Cache × Outcome :=
  let tag := tagOf cache address
  let set := setOf cache address
  let r := accessSet (cache.sets.getD set []) tag op num
  ({ cache with sets := cache.sets.set set r.1 }, r.2)

/-- `csim_stats_t`: the five counters.  `dirty_bytes` is an `Int` (see the
file comment). -/
structure Stats where
  hits : Nat
  misses : Nat
  evictions : Nat
  dirty_bytes : Int
  dirty_evictions : Nat
deriving Repr, DecidableEq

/-- The zeroed statistics created in `main`. -/
def initStats : Stats :=
  { hits := 0
    misses := 0
    evictions := 0
    dirty_bytes := 0
    dirty_evictions := 0 }

/-- One parsed trace record as read by `incrementStats`
(`%c %lx,%d`: instruction character, address, size). -/
structure AccessRecord where
  instruction : Char
  address : Nat
  size : Nat
deriving Repr, DecidableEq

/-- The statistics folding in the body of `incrementStats`, in source
order: `hits`, `misses`, `evictions`, `dirty_bytes += B`, then
`dirty_evictions += B` together with `dirty_bytes -= B`. -/
def applyOutcome (stats : Stats) (o : Outcome) (B : Nat) : Stats :=
  let s1 := if o.hit then { stats with hits := stats.hits + 1 } else stats
  let s2 := if o.miss then { s1 with misses := s1.misses + 1 } else s1
  let s3 := if o.eviction then
      { s2 with evictions := s2.evictions + 1 } else s2
  let s4 := if o.becameDirty then
      { s3 with dirty_bytes := s3.dirty_bytes + B } else s3
  if o.evictedDirty then
    { s4 with
      dirty_evictions := s4.dirty_evictions + B
      dirty_bytes := s4.dirty_bytes - B }
  else s4

/-- The replay loop of `incrementStats`: process each record in order at
logical time `linenum`, fold its outcome into the statistics. -/
def replayFrom (cache : Cache) (stats : Stats) (linenum : Nat) :
    List AccessRecord → Cache × Stats
  | [] => (cache, stats)
  | r :: rs =>
    let step := isInCache r.address cache r.instruction linenum
    replayFrom step.1 (applyOutcome stats step.2 cache.B) (linenum + 1) rs

/-- Full replay from zeroed statistics and logical time 0. -/
def replay (cache : Cache) (recs : List AccessRecord) : Cache × Stats :=
  replayFrom cache initStats 0 recs

/-- The cache evolution alone under replay (statistics dropped). -/
def runCache (cache : Cache) (linenum : Nat) : List AccessRecord → Cache
  | [] => cache
  | r :: rs =>
    runCache (isInCache r.address cache r.instruction linenum).1
      (linenum + 1) rs

/-- The per-record outcome trace of a replay. -/
def replayOutcomes (cache : Cache) (linenum : Nat) :
    List AccessRecord → List Outcome
  | [] => []
  | r :: rs =>
    let step := isInCache r.address cache r.instruction linenum
    step.2 :: replayOutcomes step.1 (linenum + 1) rs

/-! ### Generic list helpers -/

theorem getD_set_self {α : Type} :
    ∀ (ls : List α) (i : Nat) (x d : α), i < ls.length →
      (ls.set i x).getD i d = x
  | [], i, x, d, h => absurd h (by simp)
  | a :: tl, 0, x, d, _ => rfl
  | a :: tl, i + 1, x, d, h =>
    getD_set_self tl i x d (by simpa using h)

theorem getD_set_ne {α : Type} :
    ∀ (ls : List α) (i j : Nat) (x d : α), i ≠ j →
      (ls.set i x).getD j d = ls.getD j d
  | [], _, _, _, _, _ => rfl
  | a :: tl, 0, 0, x, d, h => absurd rfl h
  | a :: tl, 0, j + 1, x, d, _ => rfl
  | a :: tl, i + 1, 0, x, d, _ => rfl
  | a :: tl, i + 1, j + 1, x, d, h =>
    getD_set_ne tl i j x d (fun hij => h (by omega))

theorem getD_replicate {α : Type} :
    ∀ (n i : Nat) (a d : α), i < n → (List.replicate n a).getD i d = a
  | 0, i, a, d, h => absurd h (by simp)
  | n + 1, 0, a, d, _ => rfl
  | n + 1, i + 1, a, d, h =>
    getD_replicate n i a d (by omega)

theorem getD_append_right {α : Type} :
    ∀ (l1 l2 : List α) (i : Nat) (d : α),
      (l1 ++ l2).getD (l1.length + i) d = l2.getD i d
  | [], l2, i, d => by simp
  | a :: tl, l2, i, d => by
    have h := getD_append_right tl l2 i d
    simpa [Nat.succ_add] using h

theorem sum_map_set {α : Type} (w : α → Nat) (d : α) :
    ∀ (ls : List α) (i : Nat) (x : α), i < ls.length →
      ((ls.set i x).map w).sum + w (ls.getD i d) = (ls.map w).sum + w x
  | [], i, x, h => absurd h (by simp)
  | a :: tl, 0, x, _ => by simp [Nat.add_comm, Nat.add_left_comm]
  | a :: tl, i + 1, x, h => by
    have ih := sum_map_set w d tl i x (by simpa using h)
    simp only [List.set, List.map, List.sum_cons, List.getD_cons_succ]
    omega

/-! ### Basic facts about the embedded program -/

/-- The line at slot `li` of set `si` (default `initLine` out of range). -/
def lineAt (c : Cache) (si li : Nat) : Line :=
  (c.sets.getD si []).getD li initLine

/-- The line at slot `j` of a line list. -/
def lineD (lines : List Line) (j : Nat) : Line :=
  lines.getD j initLine

/-- Structural well-formedness: `2^s` sets, each of `E` lines, as
`makeCache` allocates them. -/
def wf (c : Cache) : Prop :=
  c.sets.length = 2 ^ c.s ∧
    ∀ i, i < c.sets.length → (c.sets.getD i []).length = c.E

theorem wf_makeCache (s E b : Nat) : wf (makeCache s E b) := by
  constructor
  · simp [makeCache]
  · intro i hi
    rw [makeCache]
    rw [getD_replicate _ _ _ _ (by simpa [makeCache] using hi)]
    simp

/-- The computed set index is always in range. -/
theorem setOf_lt (c : Cache) (address : Nat) : setOf c address < 2 ^ c.s := by
  unfold setOf
  split
  · next h => simp [h]
  · next h =>
    rw [Nat.shiftRight_eq_div_pow]
    have hpos : 0 < 2 ^ (64 - c.s) := Nat.pos_pow_of_pos _ (by omega)
    rw [Nat.div_lt_iff_lt_mul hpos]
    calc (address <<< (64 - c.s - c.b)) % 2 ^ 64 < 2 ^ 64 :=
          Nat.mod_lt _ (Nat.pos_pow_of_pos _ (by omega))
      _ ≤ 2 ^ (c.s + (64 - c.s)) := Nat.pow_le_pow_right (by omega) (by omega)
      _ = 2 ^ c.s * 2 ^ (64 - c.s) := Nat.pow_add 2 _ _

/-- `isInCache` does not change the geometry fields. -/
theorem isInCache_geometry (address : Nat) (c : Cache) (op : Char) (num : Nat) :
    (isInCache address c op num).1.S = c.S ∧
      (isInCache address c op num).1.E = c.E ∧
      (isInCache address c op num).1.B = c.B ∧
      (isInCache address c op num).1.s = c.s ∧
      (isInCache address c op num).1.b = c.b :=
  ⟨rfl, rfl, rfl, rfl, rfl⟩

/-! ### Claim C2: address decomposition -/

/-- C2: for every 64-bit address and geometry with `s + b ≤ 64`, the access
operation decomposes the address as `tag = address >> (s + b)` and
`set_index = (address >> b) mod 2^s`, with `set_index = 0` whenever `s = 0`
(handled by the explicit `s = 0` branch rather than shift arithmetic). -/
theorem claim2_address_decomposition (c : Cache) (address : Nat)
    (_haddr : address < 2 ^ 64) (hsb : c.s + c.b ≤ 64) :
    setOf c address = (address >>> c.b) % 2 ^ c.s ∧
      (c.s = 0 → setOf c address = 0) ∧
      tagOf c address = address >>> (c.s + c.b) := by
  refine ⟨?_, fun hs => by simp [setOf, hs], rfl⟩
  by_cases hs : c.s = 0
  · simp [setOf, hs, Nat.mod_one]
  · unfold setOf
    rw [if_neg hs, Nat.shiftLeft_eq, Nat.shiftRight_eq_div_pow,
      Nat.shiftRight_eq_div_pow]
    have h64 : (2 : Nat) ^ 64 = 2 ^ (c.s + c.b) * 2 ^ (64 - c.s - c.b) := by
      rw [← Nat.pow_add]; congr 1; omega
    have h64s : (2 : Nat) ^ (64 - c.s) = 2 ^ c.b * 2 ^ (64 - c.s - c.b) := by
      rw [← Nat.pow_add]; congr 1; omega
    have hsb2 : (2 : Nat) ^ (c.s + c.b) = 2 ^ c.b * 2 ^ c.s := by
      rw [← Nat.pow_add]; congr 1; omega
    rw [h64, Nat.mul_mod_mul_right, h64s,
      Nat.mul_div_mul_right _ _ (Nat.pos_pow_of_pos _ (by omega)),
      hsb2, Nat.mod_mul_right_div_self]

/-- C2 witness: the decomposition at `s = 4`, `b = 3`, address `0xABCD`. -/
theorem claim2_witness :
    ((0xABCD : Nat) < 2 ^ 64 ∧ (makeCache 4 1 3).s + (makeCache 4 1 3).b ≤ 64) ∧
      (setOf (makeCache 4 1 3) 0xABCD =
          ((0xABCD : Nat) >>> (makeCache 4 1 3).b) % 2 ^ (makeCache 4 1 3).s ∧
        ((makeCache 4 1 3).s = 0 → setOf (makeCache 4 1 3) 0xABCD = 0) ∧
        tagOf (makeCache 4 1 3) 0xABCD =
          (0xABCD : Nat) >>> ((makeCache 4 1 3).s + (makeCache 4 1 3).b)) :=
  ⟨⟨by decide, by decide⟩,
    claim2_address_decomposition (makeCache 4 1 3) 0xABCD (by decide) (by decide)⟩

/-! ### Claim C6: the concrete two-store trace -/

/-- C6: with geometry `E = 1, s = 0, b = 3` and the sequence
`[Store 0x0, Store 0x8]`, replay yields `hits = 0, misses = 2, evictions = 1,
dirty_bytes = 8, dirty_evictions = 8`. -/
theorem claim6_two_store_trace :
    (replay (makeCache 0 1 3)
        [⟨'S', 0x0, 1⟩, ⟨'S', 0x8, 1⟩]).2 =
      { hits := 0, misses := 2, evictions := 1, dirty_bytes := 8,
        dirty_evictions := 8 } := by
  decide

/-! ### Outcome shape and statistics counting (claim C4) -/

theorem accessSet_outcome (lines : List Line) (tag : Nat) (op : Char)
    (num : Nat) :
    ((accessSet lines tag op num).2.hit = true ∧
      (accessSet lines tag op num).2.miss = false ∧
      (accessSet lines tag op num).2.eviction = false) ∨
    ((accessSet lines tag op num).2.hit = false ∧
      (accessSet lines tag op num).2.miss = true) := by
  unfold accessSet
  cases h : scanLoop lines tag 0 num 0 <;> dsimp only <;> split_ifs <;> simp

theorem applyOutcome_hits (st : Stats) (o : Outcome) (B : Nat) :
    (applyOutcome st o B).hits = st.hits + (if o.hit = true then 1 else 0) := by
  unfold applyOutcome
  split_ifs <;> simp_all

theorem applyOutcome_misses (st : Stats) (o : Outcome) (B : Nat) :
    (applyOutcome st o B).misses =
      st.misses + (if o.miss = true then 1 else 0) := by
  unfold applyOutcome
  split_ifs <;> simp_all

theorem applyOutcome_evictions (st : Stats) (o : Outcome) (B : Nat) :
    (applyOutcome st o B).evictions =
      st.evictions + (if o.eviction = true then 1 else 0) := by
  unfold applyOutcome
  split_ifs <;> simp_all

theorem applyOutcome_dirty_evictions (st : Stats) (o : Outcome) (B : Nat) :
    (applyOutcome st o B).dirty_evictions =
      st.dirty_evictions + (if o.evictedDirty = true then B else 0) := by
  unfold applyOutcome
  split_ifs <;> simp_all

theorem applyOutcome_dirty_bytes (st : Stats) (o : Outcome) (B : Nat) :
    (applyOutcome st o B).dirty_bytes =
      st.dirty_bytes + (if o.becameDirty = true then (B : Int) else 0) -
        (if o.evictedDirty = true then (B : Int) else 0) := by
  unfold applyOutcome
  split_ifs <;> simp_all

theorem replayFrom_counts (rs : List AccessRecord) :
    ∀ (c : Cache) (st : Stats) (n : Nat),
      (replayFrom c st n rs).2.hits + (replayFrom c st n rs).2.misses =
          st.hits + st.misses + rs.length ∧
        (replayFrom c st n rs).2.evictions + st.misses ≤
          (replayFrom c st n rs).2.misses + st.evictions := by
  induction rs with
  | nil =>
    intro c st n
    exact ⟨by simp [replayFrom], by simp only [replayFrom]; omega⟩
  | cons r rs ih =>
    intro c st n
    rw [replayFrom]
    have h := ih (isInCache r.address c r.instruction n).1
      (applyOutcome st (isInCache r.address c r.instruction n).2 c.B) (n + 1)
    have ho := accessSet_outcome (c.sets.getD (setOf c r.address) [])
      (tagOf c r.address) r.instruction n
    have hh := applyOutcome_hits st (isInCache r.address c r.instruction n).2 c.B
    have hm := applyOutcome_misses st (isInCache r.address c r.instruction n).2 c.B
    have he := applyOutcome_evictions st (isInCache r.address c r.instruction n).2 c.B
    have hout : (isInCache r.address c r.instruction n).2 =
        (accessSet (c.sets.getD (setOf c r.address) [])
          (tagOf c r.address) r.instruction n).2 := rfl
    rw [← hout] at ho
    simp only [List.length_cons]
    rcases ho with ⟨h1, h2, h3⟩ | ⟨h1, h2⟩
    · simp [h1, h2, h3] at hh hm he
      omega
    · cases hev : (isInCache r.address c r.instruction n).2.eviction
      · simp [h1, h2, hev] at hh hm he
        omega
      · simp [h1, h2, hev] at hh hm he
        omega

/-- C4: every access call sets exactly one of `hit` and `miss`, and
`eviction` only together with `miss`; consequently after replaying any
finite record list `hits + misses` equals the record count and
`evictions ≤ misses`. -/
theorem claim4_outcome_accounting :
    (∀ (address : Nat) (c : Cache) (op : Char) (num : Nat),
        (((isInCache address c op num).2.hit = true ∧
            (isInCache address c op num).2.miss = false) ∨
          ((isInCache address c op num).2.hit = false ∧
            (isInCache address c op num).2.miss = true)) ∧
        ((isInCache address c op num).2.eviction = true →
          (isInCache address c op num).2.miss = true)) ∧
    (∀ (s E b : Nat) (recs : List AccessRecord),
        (replay (makeCache s E b) recs).2.hits +
            (replay (makeCache s E b) recs).2.misses = recs.length ∧
          (replay (makeCache s E b) recs).2.evictions ≤
            (replay (makeCache s E b) recs).2.misses) := by
  constructor
  · intro address c op num
    have ho := accessSet_outcome (c.sets.getD (setOf c address) [])
      (tagOf c address) op num
    have hout : (isInCache address c op num).2 =
        (accessSet (c.sets.getD (setOf c address) [])
          (tagOf c address) op num).2 := rfl
    rw [← hout] at ho
    rcases ho with ⟨h1, h2, h3⟩ | ⟨h1, h2⟩
    · exact ⟨Or.inl ⟨h1, h2⟩, fun hev => absurd hev (by simp [h3])⟩
    · exact ⟨Or.inr ⟨h1, h2⟩, fun _ => h2⟩
  · intro s E b recs
    have h := replayFrom_counts recs (makeCache s E b) initStats 0
    have h1 := h.1
    have h2 := h.2
    have e1 : initStats.hits = 0 := rfl
    have e2 : initStats.misses = 0 := rfl
    have e3 : initStats.evictions = 0 := rfl
    simp only [e1, e2, e3] at h1 h2
    unfold replay
    exact ⟨by omega, by omega⟩

/-! ### Claim C5: construction does not validate the geometry -/

theorem replayOutcomes_length (rs : List AccessRecord) :
    ∀ (c : Cache) (n : Nat), (replayOutcomes c n rs).length = rs.length := by
  induction rs with
  | nil => intro c n; rfl
  | cons r rs ih => intro c n; simp [replayOutcomes, ih]

/-- C5 counterexample: with the invalid geometry `E = 0` (and `s = b = 0`),
construction does not fail — `makeCache` builds one set with zero lines —
and replay of a one-record trace invokes the access operation on that cache,
producing a (miss, eviction) outcome.  This refutes both "fails fast at
construction" and "no access operation is ever invoked on a cache built from
such geometry". -/
theorem claim5_counterexample :
    (makeCache 0 0 0).sets = [[]] ∧
      replayOutcomes (makeCache 0 0 0) 0 [⟨'L', 0x0, 1⟩] =
        [⟨false, true, true, false, false⟩] := by
  decide

/-- C5 (amended): construction performs no geometry validation: for every
geometry, valid or not, `makeCache` succeeds and builds `2^s` sets of `E`
lines each, and replay invokes the access operation once per record on the
resulting cache (there is no guard preventing access after an invalid
construction). -/
theorem claim5_no_geometry_validation (s E b : Nat)
    (recs : List AccessRecord) :
    (makeCache s E b).sets.length = 2 ^ s ∧
      (∀ i, i < 2 ^ s → ((makeCache s E b).sets.getD i []).length = E) ∧
      (replayOutcomes (makeCache s E b) 0 recs).length = recs.length := by
  refine ⟨by simp [makeCache], ?_, replayOutcomes_length recs _ 0⟩
  intro i hi
  rw [makeCache]
  rw [getD_replicate _ _ _ _ (by simpa using hi)]
  simp

/-! ### Claim C9: statistics do not depend on the size field -/

theorem replayFrom_congr (rs1 : List AccessRecord) :
    ∀ (rs2 : List AccessRecord) (c : Cache) (st : Stats) (n : Nat),
      rs1.length = rs2.length →
      (∀ i, i < rs1.length →
        (rs1.getD i ⟨'L', 0, 0⟩).instruction =
            (rs2.getD i ⟨'L', 0, 0⟩).instruction ∧
          (rs1.getD i ⟨'L', 0, 0⟩).address = (rs2.getD i ⟨'L', 0, 0⟩).address) →
      replayFrom c st n rs1 = replayFrom c st n rs2 := by
  induction rs1 with
  | nil =>
    intro rs2 c st n hlen _
    cases rs2 with
    | nil => rfl
    | cons r rs => simp at hlen
  | cons r rs ih =>
    intro rs2 c st n hlen hagree
    cases rs2 with
    | nil => simp at hlen
    | cons r2 rs2 =>
      obtain ⟨hop, haddr⟩ := hagree 0 (by simp)
      simp only [List.getD_cons_zero] at hop haddr
      simp only [replayFrom, hop, haddr]
      exact ih rs2 _ _ _ (by simpa using hlen)
        (fun i hi => by simpa using hagree (i + 1) (by simpa using hi))

/-- C9: final statistics are a deterministic function of the geometry and
the (operation, address) projection of the trace: two record lists of the
same length that agree on every record's operation and address (sizes may
differ) replay to identical final statistics from identically constructed
caches. -/
theorem claim9_size_irrelevant_determinism (s E b : Nat)
    (recs1 recs2 : List AccessRecord)
    (hlen : recs1.length = recs2.length)
    (hagree : ∀ i, i < recs1.length →
      (recs1.getD i ⟨'L', 0, 0⟩).instruction =
          (recs2.getD i ⟨'L', 0, 0⟩).instruction ∧
        (recs1.getD i ⟨'L', 0, 0⟩).address =
          (recs2.getD i ⟨'L', 0, 0⟩).address) :
    (replay (makeCache s E b) recs1).2 = (replay (makeCache s E b) recs2).2 := by
  unfold replay
  rw [replayFrom_congr recs1 recs2 (makeCache s E b) initStats 0 hlen hagree]

/-- C9 witness: two one-record traces that differ only in the size field. -/
theorem claim9_witness :
    (([⟨'S', 0x10, 1⟩] : List AccessRecord).length =
        ([⟨'S', 0x10, 4⟩] : List AccessRecord).length ∧
      (∀ i, i < ([⟨'S', 0x10, 1⟩] : List AccessRecord).length →
        (([⟨'S', 0x10, 1⟩] : List AccessRecord).getD i
              ⟨'L', 0, 0⟩).instruction =
            (([⟨'S', 0x10, 4⟩] : List AccessRecord).getD i
              ⟨'L', 0, 0⟩).instruction ∧
          (([⟨'S', 0x10, 1⟩] : List AccessRecord).getD i ⟨'L', 0, 0⟩).address =
            (([⟨'S', 0x10, 4⟩] : List AccessRecord).getD i
              ⟨'L', 0, 0⟩).address)) ∧
      (replay (makeCache 1 1 2) [⟨'S', 0x10, 1⟩]).2 =
        (replay (makeCache 1 1 2) [⟨'S', 0x10, 4⟩]).2 :=
  ⟨⟨by decide, by decide⟩,
    claim9_size_irrelevant_determinism 1 1 2 [⟨'S', 0x10, 1⟩] [⟨'S', 0x10, 4⟩]
      (by decide) (by decide)⟩

/-! ### Inversion lemmas for the scan loop -/

theorem scanLoop_hit_inv (lines : List Line) :
    ∀ (tag i oldest index r : Nat),
      scanLoop lines tag i oldest index = .hit r →
      ∃ k, k < lines.length ∧ r = i + k ∧
        (lineD lines k).validbit = true ∧ (lineD lines k).tagbits = tag ∧
        ∀ j, j < k → (lineD lines j).validbit = true ∧
          (lineD lines j).tagbits ≠ tag := by
  induction lines with
  | nil => intro tag i oldest index r h; cases h
  | cons l rest ih =>
    intro tag i oldest index r h
    rw [scanLoop] at h
    split_ifs at h with h1 h2 h3
    · cases h
      exact ⟨0, by simp, by omega, h1.2, h1.1,
        fun j hj => absurd hj (by omega)⟩
    · obtain ⟨k, hk, hr, hv, ht, hpre⟩ := ih tag (i + 1) l.timestamp i r h
      have hlv : l.validbit = true := by
        cases hb : l.validbit
        · exact absurd hb h2
        · rfl
      have hlt : l.tagbits ≠ tag := fun he => h1 ⟨he, hlv⟩
      refine ⟨k + 1, by simpa using Nat.succ_lt_succ hk, by omega, hv, ht, ?_⟩
      intro j hj
      cases j with
      | zero => exact ⟨hlv, hlt⟩
      | succ j => exact hpre j (by omega)
    · obtain ⟨k, hk, hr, hv, ht, hpre⟩ := ih tag (i + 1) oldest index r h
      have hlv : l.validbit = true := by
        cases hb : l.validbit
        · exact absurd hb h2
        · rfl
      have hlt : l.tagbits ≠ tag := fun he => h1 ⟨he, hlv⟩
      refine ⟨k + 1, by simpa using Nat.succ_lt_succ hk, by omega, hv, ht, ?_⟩
      intro j hj
      cases j with
      | zero => exact ⟨hlv, hlt⟩
      | succ j => exact hpre j (by omega)

theorem scanLoop_cold_inv (lines : List Line) :
    ∀ (tag i oldest index r : Nat),
      scanLoop lines tag i oldest index = .cold r →
      ∃ k, k < lines.length ∧ r = i + k ∧
        (lineD lines k).validbit = false ∧
        ∀ j, j < k → (lineD lines j).validbit = true ∧
          (lineD lines j).tagbits ≠ tag := by
  induction lines with
  | nil => intro tag i oldest index r h; cases h
  | cons l rest ih =>
    intro tag i oldest index r h
    rw [scanLoop] at h
    split_ifs at h with h1 h2 h3
    · cases h
      exact ⟨0, by simp, by omega, h2, fun j hj => absurd hj (by omega)⟩
    · obtain ⟨k, hk, hr, hv, hpre⟩ := ih tag (i + 1) l.timestamp i r h
      have hlv : l.validbit = true := by
        cases hb : l.validbit
        · exact absurd hb h2
        · rfl
      have hlt : l.tagbits ≠ tag := fun he => h1 ⟨he, hlv⟩
      refine ⟨k + 1, by simpa using Nat.succ_lt_succ hk, by omega, hv, ?_⟩
      intro j hj
      cases j with
      | zero => exact ⟨hlv, hlt⟩
      | succ j => exact hpre j (by omega)
    · obtain ⟨k, hk, hr, hv, hpre⟩ := ih tag (i + 1) oldest index r h
      have hlv : l.validbit = true := by
        cases hb : l.validbit
        · exact absurd hb h2
        · rfl
      have hlt : l.tagbits ≠ tag := fun he => h1 ⟨he, hlv⟩
      refine ⟨k + 1, by simpa using Nat.succ_lt_succ hk, by omega, hv, ?_⟩
      intro j hj
      cases j with
      | zero => exact ⟨hlv, hlt⟩
      | succ j => exact hpre j (by omega)

theorem scanLoop_full_inv (lines : List Line) :
    ∀ (tag i oldest index r : Nat),
      scanLoop lines tag i oldest index = .full r →
      (∀ j, j < lines.length → (lineD lines j).validbit = true ∧
        (lineD lines j).tagbits ≠ tag) ∧
      (r = index ∨ ∃ k, k < lines.length ∧ r = i + k) := by
  induction lines with
  | nil =>
    intro tag i oldest index r h
    cases h
    exact ⟨fun j hj => absurd hj (by simp), Or.inl rfl⟩
  | cons l rest ih =>
    intro tag i oldest index r h
    rw [scanLoop] at h
    split_ifs at h with h1 h2 h3
    · obtain ⟨hall, hrange⟩ := ih tag (i + 1) l.timestamp i r h
      have hlv : l.validbit = true := by
        cases hb : l.validbit
        · exact absurd hb h2
        · rfl
      have hlt : l.tagbits ≠ tag := fun he => h1 ⟨he, hlv⟩
      refine ⟨?_, ?_⟩
      · intro j hj
        cases j with
        | zero => exact ⟨hlv, hlt⟩
        | succ j => exact hall j (by simpa using hj)
      · rcases hrange with hr | ⟨k, hk, hr⟩
        · exact Or.inr ⟨0, by simp, by omega⟩
        · exact Or.inr ⟨k + 1, by simpa using Nat.succ_lt_succ hk, by omega⟩
    · obtain ⟨hall, hrange⟩ := ih tag (i + 1) oldest index r h
      have hlv : l.validbit = true := by
        cases hb : l.validbit
        · exact absurd hb h2
        · rfl
      have hlt : l.tagbits ≠ tag := fun he => h1 ⟨he, hlv⟩
      refine ⟨?_, ?_⟩
      · intro j hj
        cases j with
        | zero => exact ⟨hlv, hlt⟩
        | succ j => exact hall j (by simpa using hj)
      · rcases hrange with hr | ⟨k, hk, hr⟩
        · exact Or.inl hr
        · exact Or.inr ⟨k + 1, by simpa using Nat.succ_lt_succ hk, by omega⟩

theorem scanLoop_full_lru (lines : List Line) :
    ∀ (tag i oldest index r : Nat),
      (∀ j, j < lines.length → (lineD lines j).validbit = true ∧
        (lineD lines j).tagbits ≠ tag) →
      scanLoop lines tag i oldest index = .full r →
      (r = index ∧ ∀ j, j < lines.length →
        oldest ≤ (lineD lines j).timestamp) ∨
      (∃ k, k < lines.length ∧ r = i + k ∧
        (lineD lines k).timestamp < oldest ∧
        (∀ j, j < lines.length →
          (lineD lines k).timestamp ≤ (lineD lines j).timestamp) ∧
        (∀ j, j < k → (lineD lines k).timestamp < (lineD lines j).timestamp)) := by
  induction lines with
  | nil =>
    intro tag i oldest index r _ h
    cases h
    exact Or.inl ⟨rfl, fun j hj => absurd hj (by simp)⟩
  | cons l rest ih =>
    intro tag i oldest index r hall h
    rw [scanLoop] at h
    split_ifs at h with h1 h2 h3
    · have hrest : ∀ j, j < rest.length → (lineD rest j).validbit = true ∧
          (lineD rest j).tagbits ≠ tag :=
        fun j hj => hall (j + 1) (by simpa using Nat.succ_lt_succ hj)
      rcases ih tag (i + 1) l.timestamp i r hrest h with
        ⟨hr, hmin⟩ | ⟨k, hk, hr, hko, hmin, hstrict⟩
      · refine Or.inr ⟨0, by simp, by omega, h3, ?_, ?_⟩
        · intro j hj
          cases j with
          | zero => exact Nat.le_refl _
          | succ j => exact hmin j (by simpa using hj)
        · intro j hj; exact absurd hj (by omega)
      · refine Or.inr ⟨k + 1, by simpa using Nat.succ_lt_succ hk, by omega,
          Nat.lt_trans hko h3, ?_, ?_⟩
        · intro j hj
          cases j with
          | zero => exact Nat.le_of_lt hko
          | succ j => exact hmin j (by simpa using hj)
        · intro j hj
          cases j with
          | zero => exact hko
          | succ j => exact hstrict j (by omega)
    · have hge : oldest ≤ l.timestamp := Nat.not_lt.mp h3
      have hrest : ∀ j, j < rest.length → (lineD rest j).validbit = true ∧
          (lineD rest j).tagbits ≠ tag :=
        fun j hj => hall (j + 1) (by simpa using Nat.succ_lt_succ hj)
      rcases ih tag (i + 1) oldest index r hrest h with
        ⟨hr, hmin⟩ | ⟨k, hk, hr, hko, hmin, hstrict⟩
      · refine Or.inl ⟨hr, ?_⟩
        intro j hj
        cases j with
        | zero => exact hge
        | succ j => exact hmin j (by simpa using hj)
      · refine Or.inr ⟨k + 1, by simpa using Nat.succ_lt_succ hk, by omega,
          hko, ?_, ?_⟩
        · intro j hj
          cases j with
          | zero => exact Nat.le_of_lt (Nat.lt_of_lt_of_le hko hge)
          | succ j => exact hmin j (by simpa using hj)
        · intro j hj
          cases j with
          | zero => exact Nat.lt_of_lt_of_le hko hge
          | succ j => exact hstrict j (by omega)

theorem scanLoop_hit_of (lines : List Line) :
    ∀ (tag i oldest index k : Nat), k < lines.length →
      (∀ j, j < k → (lineD lines j).validbit = true ∧
        (lineD lines j).tagbits ≠ tag) →
      (lineD lines k).validbit = true → (lineD lines k).tagbits = tag →
      scanLoop lines tag i oldest index = .hit (i + k) := by
  induction lines with
  | nil => intro tag i oldest index k hk; exact absurd hk (by simp)
  | cons l rest ih =>
    intro tag i oldest index k hk hpre hv ht
    cases k with
    | zero =>
      rw [scanLoop, if_pos ⟨ht, hv⟩, Nat.add_zero]
    | succ k =>
      have hl0 := hpre 0 (by omega)
      have hlv : l.validbit = true := hl0.1
      have hlt : l.tagbits ≠ tag := hl0.2
      rw [scanLoop, if_neg (fun hc => hlt hc.1), if_neg (by simp [hlv])]
      have hrec := ih tag (i + 1) (if l.timestamp < oldest then l.timestamp
        else oldest) (if l.timestamp < oldest then i else index) k
        (by simpa using hk)
        (fun j hj => hpre (j + 1) (by omega)) hv ht
      have harith : i + 1 + k = i + (k + 1) := by omega
      split_ifs with h3
      · have := ih tag (i + 1) l.timestamp i k (by simpa using hk)
          (fun j hj => hpre (j + 1) (by omega)) hv ht
        rw [this, harith]
      · have := ih tag (i + 1) oldest index k (by simpa using hk)
          (fun j hj => hpre (j + 1) (by omega)) hv ht
        rw [this, harith]

/-! ### Claim C1: miss in a full set evicts the least-recently-used line -/

theorem accessSet_full_update (lines : List Line) (tag : Nat) (op : Char)
    (num r : Nat) (hscan : scanLoop lines tag 0 num 0 = .full r)
    (hr : r < lines.length) :
    (lineD (accessSet lines tag op num).1 r).tagbits = tag ∧
      (lineD (accessSet lines tag op num).1 r).timestamp = num ∧
      (lineD (accessSet lines tag op num).1 r).validbit =
        (lineD lines r).validbit ∧
      (∀ j, j ≠ r → lineD (accessSet lines tag op num).1 j = lineD lines j) ∧
      (accessSet lines tag op num).2.miss = true ∧
      (accessSet lines tag op num).2.eviction = true := by
  have hself : ∀ x : Line, lineD (lines.set r x) r = x := fun x =>
    getD_set_self lines r x initLine hr
  have hother : ∀ (x : Line) (j : Nat), j ≠ r →
      lineD (lines.set r x) j = lineD lines j := fun x j hj =>
    getD_set_ne lines r j x initLine (fun he => hj he.symm)
  unfold accessSet
  rw [hscan]
  dsimp only
  split_ifs with hop
  · exact ⟨by rw [hself], by rw [hself], by rw [hself]; rfl,
      fun j hj => hother _ j hj, rfl, rfl⟩
  · exact ⟨by rw [hself], by rw [hself], by rw [hself]; rfl,
      fun j hj => hother _ j hj, rfl, rfl⟩

/-- C1: on a miss in a full set (all `E` lines valid, none carrying the
computed tag) at a logical time strictly above every timestamp in the set —
as holds during replay, where timestamps are earlier record indices — the
line replaced is the valid line with the smallest `last_used` timestamp,
the first such line in slot order in case of ties; its tag is overwritten
with the computed tag, its timestamp with the current time, it remains
valid, the other lines are untouched, and the miss and eviction flags are
signalled. -/
theorem claim1_full_set_lru_eviction (cache : Cache) (address : Nat)
    (op : Char) (num : Nat) (hwf : wf cache) (hE : 1 ≤ cache.E)
    (hfull : ∀ j, j < cache.E →
      (lineAt cache (setOf cache address) j).validbit = true)
    (hmiss : ∀ j, j < cache.E →
      (lineAt cache (setOf cache address) j).tagbits ≠ tagOf cache address)
    (htime : ∀ j, j < cache.E →
      (lineAt cache (setOf cache address) j).timestamp < num) :
    ∃ k, k < cache.E ∧
      (∀ j, j < cache.E →
        (lineAt cache (setOf cache address) k).timestamp ≤
          (lineAt cache (setOf cache address) j).timestamp) ∧
      (∀ j, j < k →
        (lineAt cache (setOf cache address) k).timestamp <
          (lineAt cache (setOf cache address) j).timestamp) ∧
      (lineAt (isInCache address cache op num).1 (setOf cache address)
          k).tagbits = tagOf cache address ∧
      (lineAt (isInCache address cache op num).1 (setOf cache address)
          k).timestamp = num ∧
      (lineAt (isInCache address cache op num).1 (setOf cache address)
          k).validbit = true ∧
      (∀ j, j < cache.E → j ≠ k →
        lineAt (isInCache address cache op num).1 (setOf cache address) j =
          lineAt cache (setOf cache address) j) ∧
      (isInCache address cache op num).2.miss = true ∧
      (isInCache address cache op num).2.eviction = true := by
  have hsetlt : setOf cache address < cache.sets.length := by
    rw [hwf.1]; exact setOf_lt cache address
  have hlen : (cache.sets.getD (setOf cache address) []).length = cache.E :=
    hwf.2 _ hsetlt
  have hall : ∀ j, j < (cache.sets.getD (setOf cache address) []).length →
      (lineD (cache.sets.getD (setOf cache address) []) j).validbit = true ∧
        (lineD (cache.sets.getD (setOf cache address) []) j).tagbits ≠
          tagOf cache address := by
    intro j hj
    rw [hlen] at hj
    exact ⟨hfull j hj, hmiss j hj⟩
  cases hscan : scanLoop (cache.sets.getD (setOf cache address) [])
      (tagOf cache address) 0 num 0 with
  | hit r =>
    obtain ⟨k, hk, _, _, ht, _⟩ :=
      scanLoop_hit_inv _ _ _ _ _ _ hscan
    exact absurd ht (hmiss k (by omega))
  | cold r =>
    obtain ⟨k, hk, _, hv, _⟩ :=
      scanLoop_cold_inv _ _ _ _ _ _ hscan
    have hv2 : (lineAt cache (setOf cache address) k).validbit = false := hv
    have hv3 := hfull k (by omega)
    rw [hv3] at hv2
    cases hv2
  | full r =>
    rcases scanLoop_full_lru _ _ _ _ _ _ hall hscan with
      ⟨_, hmin⟩ | ⟨k, hk, hr, _, hmin, hstrict⟩
    · have h0 := hmin 0 (by omega)
      have := htime 0 (by omega)
      exact absurd h0 (by
        rw [show lineD (cache.sets.getD (setOf cache address) []) 0 =
          lineAt cache (setOf cache address) 0 from rfl]
        omega)
    · have hrk : r = k := by omega
      subst hrk
      obtain ⟨hu1, hu2, hu3, hu4, hu5, hu6⟩ :=
        accessSet_full_update (cache.sets.getD (setOf cache address) [])
          (tagOf cache address) op num r hscan (by omega)
    -- the updated cache reads back the updated line list
      have hread : ∀ j : Nat,
          lineAt (isInCache address cache op num).1 (setOf cache address) j =
            lineD (accessSet (cache.sets.getD (setOf cache address) [])
              (tagOf cache address) op num).1 j := by
        intro j
        show ((cache.sets.set (setOf cache address) _).getD
            (setOf cache address) []).getD j initLine = _
        rw [getD_set_self _ _ _ _ hsetlt]
        rfl
      refine ⟨r, by omega, ?_, ?_, ?_, ?_, ?_, ?_, hu5, hu6⟩
      · intro j hj
        exact hmin j (by omega)
      · intro j hj
        exact hstrict j hj
      · rw [hread]; exact hu1
      · rw [hread]; exact hu2
      · rw [hread, hu3]
        exact hfull r (by omega)
      · intro j hj hjr
        rw [hread]
        exact hu4 j hjr

/-- The concrete cache used to witness C1: one set of two valid lines with
distinct tags and timestamps 3 and 1, accessed with a fresh tag at time 4. -/
def lruWitnessCache : Cache :=
  { S := 1, E := 2, B := 1, s := 0, b := 0,
    sets := [[⟨true, 5, false, 3⟩, ⟨true, 7, false, 1⟩]] }

/-- C1 witness: on the concrete full set the slower line (slot 1,
timestamp 1) is evicted. -/
theorem claim1_witness :
    (wf lruWitnessCache ∧ 1 ≤ lruWitnessCache.E ∧
      (∀ j, j < lruWitnessCache.E →
        (lineAt lruWitnessCache (setOf lruWitnessCache 9) j).validbit = true) ∧
      (∀ j, j < lruWitnessCache.E →
        (lineAt lruWitnessCache (setOf lruWitnessCache 9) j).tagbits ≠
          tagOf lruWitnessCache 9) ∧
      (∀ j, j < lruWitnessCache.E →
        (lineAt lruWitnessCache (setOf lruWitnessCache 9) j).timestamp < 4)) ∧
    (∃ k, k < lruWitnessCache.E ∧
      (∀ j, j < lruWitnessCache.E →
        (lineAt lruWitnessCache (setOf lruWitnessCache 9) k).timestamp ≤
          (lineAt lruWitnessCache (setOf lruWitnessCache 9) j).timestamp) ∧
      (∀ j, j < k →
        (lineAt lruWitnessCache (setOf lruWitnessCache 9) k).timestamp <
          (lineAt lruWitnessCache (setOf lruWitnessCache 9) j).timestamp) ∧
      (lineAt (isInCache 9 lruWitnessCache 'L' 4).1
          (setOf lruWitnessCache 9) k).tagbits = tagOf lruWitnessCache 9 ∧
      (lineAt (isInCache 9 lruWitnessCache 'L' 4).1
          (setOf lruWitnessCache 9) k).timestamp = 4 ∧
      (lineAt (isInCache 9 lruWitnessCache 'L' 4).1
          (setOf lruWitnessCache 9) k).validbit = true ∧
      (∀ j, j < lruWitnessCache.E → j ≠ k →
        lineAt (isInCache 9 lruWitnessCache 'L' 4).1
            (setOf lruWitnessCache 9) j =
          lineAt lruWitnessCache (setOf lruWitnessCache 9) j) ∧
      (isInCache 9 lruWitnessCache 'L' 4).2.miss = true ∧
      (isInCache 9 lruWitnessCache 'L' 4).2.eviction = true) :=
  ⟨⟨⟨by decide, by decide⟩, by decide, by decide, by decide, by decide⟩,
    claim1_full_set_lru_eviction lruWitnessCache 9 'L' 4
      ⟨by decide, by decide⟩ (by decide) (by decide) (by decide) (by decide)⟩

/-! ### Branch equations for `accessSet` -/

/-- The update the hit branch applies to the matched line. -/
def hitLine (line : Line) (op : Char) (num : Nat) : Line :=
  if op = 'S' ∧ line.dirtybit = false
  then { line with timestamp := num, dirtybit := true }
  else { line with timestamp := num }

/-- The update the fill (cold-miss) branch applies to the first invalid
line. -/
def coldLine (line : Line) (tag : Nat) (op : Char) (num : Nat) : Line :=
  if op = 'S'
  then { line with timestamp := num, tagbits := tag, validbit := true, dirtybit := true }
  else { line with timestamp := num, tagbits := tag, validbit := true }

/-- The update the eviction branch applies to the LRU line. -/
def fullLine (line : Line) (tag : Nat) (op : Char) (num : Nat) : Line :=
  if op = 'S'
  then { line with timestamp := num, tagbits := tag, dirtybit := true }
  else { line with timestamp := num, tagbits := tag, dirtybit := false }

theorem hitLine_validbit (line : Line) (op : Char) (num : Nat) :
    (hitLine line op num).validbit = line.validbit := by
  unfold hitLine; split_ifs <;> rfl

theorem hitLine_tagbits (line : Line) (op : Char) (num : Nat) :
    (hitLine line op num).tagbits = line.tagbits := by
  unfold hitLine; split_ifs <;> rfl

theorem coldLine_validbit (line : Line) (tag : Nat) (op : Char) (num : Nat) :
    (coldLine line tag op num).validbit = true := by
  unfold coldLine; split_ifs <;> rfl

theorem coldLine_tagbits (line : Line) (tag : Nat) (op : Char) (num : Nat) :
    (coldLine line tag op num).tagbits = tag := by
  unfold coldLine; split_ifs <;> rfl

theorem fullLine_validbit (line : Line) (tag : Nat) (op : Char) (num : Nat) :
    (fullLine line tag op num).validbit = line.validbit := by
  unfold fullLine; split_ifs <;> rfl

theorem fullLine_tagbits (line : Line) (tag : Nat) (op : Char) (num : Nat) :
    (fullLine line tag op num).tagbits = tag := by
  unfold fullLine; split_ifs <;> rfl

theorem accessSet_hit_eq (lines : List Line) (tag : Nat) (op : Char)
    (num r : Nat) (hscan : scanLoop lines tag 0 num 0 = .hit r) :
    (accessSet lines tag op num).1 =
      lines.set r (hitLine (lineD lines r) op num) ∧
    (accessSet lines tag op num).2 =
      (if op = 'S' ∧ (lineD lines r).dirtybit = false
        then ⟨true, false, false, true, false⟩
        else ⟨true, false, false, false, false⟩) := by
  unfold accessSet hitLine
  rw [hscan]
  dsimp only
  simp only [lineD]
  split_ifs with h
  · exact ⟨rfl, rfl⟩
  · exact ⟨rfl, rfl⟩

theorem accessSet_cold_eq (lines : List Line) (tag : Nat) (op : Char)
    (num r : Nat) (hscan : scanLoop lines tag 0 num 0 = .cold r) :
    (accessSet lines tag op num).1 =
      lines.set r (coldLine (lineD lines r) tag op num) ∧
    (accessSet lines tag op num).2 =
      (if op = 'S'
        then ⟨false, true, false, true, false⟩
        else ⟨false, true, false, false, false⟩) := by
  unfold accessSet coldLine
  rw [hscan]
  dsimp only
  simp only [lineD]
  split_ifs with h
  · exact ⟨rfl, rfl⟩
  · exact ⟨rfl, rfl⟩

theorem accessSet_full_eq (lines : List Line) (tag : Nat) (op : Char)
    (num r : Nat) (hscan : scanLoop lines tag 0 num 0 = .full r) :
    (accessSet lines tag op num).1 =
      lines.set r (fullLine (lineD lines r) tag op num) ∧
    (accessSet lines tag op num).2 =
      (if op = 'S'
        then ⟨false, true, true, true, (lineD lines r).dirtybit⟩
        else ⟨false, true, true, false, (lineD lines r).dirtybit⟩) := by
  unfold accessSet fullLine
  rw [hscan]
  dsimp only
  simp only [lineD]
  split_ifs with h
  · exact ⟨rfl, rfl⟩
  · exact ⟨rfl, rfl⟩

theorem accessSet_length (lines : List Line) (tag : Nat) (op : Char)
    (num : Nat) : (accessSet lines tag op num).1.length = lines.length := by
  cases hscan : scanLoop lines tag 0 num 0 with
  | hit r => rw [(accessSet_hit_eq lines tag op num r hscan).1,
      List.length_set]
  | cold r => rw [(accessSet_cold_eq lines tag op num r hscan).1,
      List.length_set]
  | full r => rw [(accessSet_full_eq lines tag op num r hscan).1,
      List.length_set]

/-! ### Well-formedness is preserved by access and replay -/

theorem isInCache_wf (address : Nat) (c : Cache) (op : Char) (num : Nat)
    (hwf : wf c) : wf (isInCache address c op num).1 := by
  have hsetlt : setOf c address < c.sets.length := by
    rw [hwf.1]; exact setOf_lt c address
  have hsets : (isInCache address c op num).1.sets =
      c.sets.set (setOf c address)
        (accessSet (c.sets.getD (setOf c address) [])
          (tagOf c address) op num).1 := rfl
  constructor
  · rw [hsets, List.length_set]; exact hwf.1
  · intro i hi
    rw [hsets, List.length_set] at hi
    rw [hsets]
    by_cases he : setOf c address = i
    · subst he
      rw [getD_set_self _ _ _ _ hsetlt, accessSet_length]
      exact hwf.2 _ hsetlt
    · rw [getD_set_ne _ _ _ _ _ he]
      exact hwf.2 i hi

theorem runCache_wf (rs : List AccessRecord) :
    ∀ (c : Cache) (n : Nat), wf c → wf (runCache c n rs) := by
  induction rs with
  | nil => intro c n hwf; exact hwf
  | cons r rs ih =>
    intro c n hwf
    exact ih _ _ (isInCache_wf r.address c r.instruction n hwf)

theorem runCache_E (rs : List AccessRecord) :
    ∀ (c : Cache) (n : Nat), (runCache c n rs).E = c.E := by
  induction rs with
  | nil => intro c n; rfl
  | cons r rs ih => intro c n; exact ih _ _

/-! ### Claim C7: an immediately repeated access hits -/

theorem accessSet_twice_hit (lines : List Line) (tag : Nat)
    (op1 op2 : Char) (n1 n2 : Nat) (h0 : 0 < lines.length) :
    (accessSet (accessSet lines tag op1 n1).1 tag op2 n2).2.hit = true := by
  -- after the first access some slot `k` holds the tag, with every earlier
  -- slot valid and not holding it
  have hgood : ∃ k, k < (accessSet lines tag op1 n1).1.length ∧
      (lineD (accessSet lines tag op1 n1).1 k).validbit = true ∧
      (lineD (accessSet lines tag op1 n1).1 k).tagbits = tag ∧
      ∀ j, j < k → (lineD (accessSet lines tag op1 n1).1 j).validbit = true ∧
        (lineD (accessSet lines tag op1 n1).1 j).tagbits ≠ tag := by
    cases hscan : scanLoop lines tag 0 n1 0 with
    | hit r =>
      obtain ⟨k, hk, hrk, hv, ht, hpre⟩ := scanLoop_hit_inv _ _ _ _ _ _ hscan
      have hrk2 : r = k := by omega
      subst hrk2
      rw [(accessSet_hit_eq lines tag op1 n1 r hscan).1]
      refine ⟨r, by rw [List.length_set]; omega, ?_, ?_, ?_⟩
      · rw [show lineD (lines.set r _) r = _ from
          getD_set_self _ _ _ _ (by omega), hitLine_validbit]
        exact hv
      · rw [show lineD (lines.set r _) r = _ from
          getD_set_self _ _ _ _ (by omega), hitLine_tagbits]
        exact ht
      · intro j hj
        rw [show lineD (lines.set r _) j = lineD lines j from
          getD_set_ne _ _ _ _ _ (by omega)]
        exact hpre j hj
    | cold r =>
      obtain ⟨k, hk, hrk, hv, hpre⟩ := scanLoop_cold_inv _ _ _ _ _ _ hscan
      have hrk2 : r = k := by omega
      subst hrk2
      rw [(accessSet_cold_eq lines tag op1 n1 r hscan).1]
      refine ⟨r, by rw [List.length_set]; omega, ?_, ?_, ?_⟩
      · rw [show lineD (lines.set r _) r = _ from
          getD_set_self _ _ _ _ (by omega), coldLine_validbit]
      · rw [show lineD (lines.set r _) r = _ from
          getD_set_self _ _ _ _ (by omega), coldLine_tagbits]
      · intro j hj
        rw [show lineD (lines.set r _) j = lineD lines j from
          getD_set_ne _ _ _ _ _ (by omega)]
        exact hpre j hj
    | full r =>
      obtain ⟨hall, hrange⟩ := scanLoop_full_inv _ _ _ _ _ _ hscan
      have hr : r < lines.length := by
        rcases hrange with hr0 | ⟨k, hk, hrk⟩
        · omega
        · omega
      rw [(accessSet_full_eq lines tag op1 n1 r hscan).1]
      refine ⟨r, by rw [List.length_set]; omega, ?_, ?_, ?_⟩
      · rw [show lineD (lines.set r _) r = _ from
          getD_set_self _ _ _ _ hr, fullLine_validbit]
        exact (hall r hr).1
      · rw [show lineD (lines.set r _) r = _ from
          getD_set_self _ _ _ _ hr, fullLine_tagbits]
      · intro j hj
        rw [show lineD (lines.set r _) j = lineD lines j from
          getD_set_ne _ _ _ _ _ (by omega)]
        exact hall j (by omega)
  obtain ⟨k, hk, hv, ht, hpre⟩ := hgood
  have hscan2 := scanLoop_hit_of (accessSet lines tag op1 n1).1 tag 0 n2 0 k
    hk hpre hv ht
  rw [(accessSet_hit_eq _ tag op2 n2 (0 + k) hscan2).2]
  split_ifs <;> rfl

theorem isInCache_twice_hit (c : Cache) (address : Nat) (op1 op2 : Char)
    (n1 n2 : Nat) (hwf : wf c) (hE : 1 ≤ c.E) :
    (isInCache address (isInCache address c op1 n1).1 op2 n2).2.hit = true := by
  have hsetlt : setOf c address < c.sets.length := by
    rw [hwf.1]; exact setOf_lt c address
  have hsets1 : (isInCache address c op1 n1).1.sets.getD (setOf c address) [] =
      (accessSet (c.sets.getD (setOf c address) [])
        (tagOf c address) op1 n1).1 := by
    show (c.sets.set (setOf c address) _).getD (setOf c address) [] = _
    exact getD_set_self _ _ _ _ hsetlt
  have hstep : (isInCache address (isInCache address c op1 n1).1 op2 n2).2 =
      (accessSet ((isInCache address c op1 n1).1.sets.getD
        (setOf c address) []) (tagOf c address) op2 n2).2 := rfl
  rw [hstep, hsets1]
  exact accessSet_twice_hit _ _ op1 op2 n1 n2
    (by rw [hwf.2 _ hsetlt]; omega)

theorem replayOutcomes_append (pre : List AccessRecord) :
    ∀ (rs : List AccessRecord) (c : Cache) (n : Nat),
      replayOutcomes c n (pre ++ rs) =
        replayOutcomes c n pre ++
          replayOutcomes (runCache c n pre) (n + pre.length) rs := by
  induction pre with
  | nil => intro rs c n; simp [replayOutcomes, runCache]
  | cons p pre ih =>
    intro rs c n
    simp only [List.cons_append, replayOutcomes, runCache, List.length_cons,
      List.append_eq]
    rw [ih]
    have : n + (pre.length + 1) = n + 1 + pre.length := by omega
    rw [this]

/-- C7: a record identical (same operation and address) to the immediately
preceding record always produces the hit outcome: at every position
`pre.length + 1` of a replayed trace `pre ++ [r, r2] ++ rest` with
`r2` repeating `r`, the outcome is a hit. -/
theorem claim7_repeated_access_hits (s E b : Nat) (hE : 1 ≤ E)
    (pre rest : List AccessRecord) (r r2 : AccessRecord)
    (hop : r2.instruction = r.instruction) (haddr : r2.address = r.address) :
    ((replayOutcomes (makeCache s E b) 0 (pre ++ r :: r2 :: rest)).getD
        (pre.length + 1) default).hit = true := by
  rw [replayOutcomes_append]
  have hlen : pre.length = (replayOutcomes (makeCache s E b) 0 pre).length :=
    (replayOutcomes_length pre _ 0).symm
  rw [show pre.length + 1 =
    (replayOutcomes (makeCache s E b) 0 pre).length + 1 from by omega]
  rw [getD_append_right]
  have hwf1 : wf (runCache (makeCache s E b) 0 pre) :=
    runCache_wf pre _ 0 (wf_makeCache s E b)
  have hE1 : 1 ≤ (runCache (makeCache s E b) 0 pre).E := by
    rw [runCache_E]; exact hE
  simp only [replayOutcomes, List.getD_cons_succ, List.getD_cons_zero]
  rw [haddr, hop]
  exact isInCache_twice_hit _ r.address r.instruction r.instruction _ _
    hwf1 hE1

/-- C7 witness: two identical loads in a row; the second hits. -/
theorem claim7_witness :
    ((1 : Nat) ≤ 1 ∧
      (⟨'L', 5, 1⟩ : AccessRecord).instruction =
        (⟨'L', 5, 1⟩ : AccessRecord).instruction ∧
      (⟨'L', 5, 1⟩ : AccessRecord).address =
        (⟨'L', 5, 1⟩ : AccessRecord).address) ∧
    ((replayOutcomes (makeCache 0 1 0) 0
        (([] : List AccessRecord) ++
          (⟨'L', 5, 1⟩ : AccessRecord) :: (⟨'L', 5, 1⟩ : AccessRecord) ::
            ([] : List AccessRecord))).getD
      (([] : List AccessRecord).length + 1) default).hit = true :=
  ⟨⟨by decide, rfl, rfl⟩,
    claim7_repeated_access_hits 0 1 0 (by decide) [] [] ⟨'L', 5, 1⟩
      ⟨'L', 5, 1⟩ rfl rfl⟩

/-! ### Claim C3: dirty-byte accounting -/

/-- Weight 1 for a line that is currently valid and dirty. -/
def lineWeight (l : Line) : Nat :=
  if l.validbit = true ∧ l.dirtybit = true then 1 else 0

/-- Number of valid dirty lines in one set. -/
def dirtyCount (ls : List Line) : Nat :=
  (ls.map lineWeight).sum

/-- Number of valid dirty lines in the whole cache. -/
def dirtyValidCount (c : Cache) : Nat :=
  (c.sets.map dirtyCount).sum

/-- Invalid lines are clean (they are never written before their first
fill, and the initial lines are clean). -/
def cleanInvalid (c : Cache) : Prop :=
  ∀ i, i < c.sets.length → ∀ j, j < (c.sets.getD i []).length →
    (lineD (c.sets.getD i []) j).validbit = false →
    (lineD (c.sets.getD i []) j).dirtybit = false

theorem dirtyValidCount_makeCache (s E b : Nat) :
    dirtyValidCount (makeCache s E b) = 0 := by
  simp [dirtyValidCount, makeCache, dirtyCount, lineWeight, initLine,
    List.map_replicate, List.sum_replicate]

theorem cleanInvalid_makeCache (s E b : Nat) :
    cleanInvalid (makeCache s E b) := by
  intro i hi j hj _
  have hset : (makeCache s E b).sets.getD i [] = List.replicate E initLine := by
    rw [makeCache]
    exact getD_replicate _ _ _ _ (by simpa [makeCache] using hi)
  rw [hset] at hj ⊢
  rw [show lineD (List.replicate E initLine) j = initLine from
    getD_replicate _ _ _ _ (by simpa using hj)]
  rfl

theorem sum_lineWeight_set (lines : List Line) (r : Nat) (x : Line)
    (hr : r < lines.length) :
    dirtyCount (lines.set r x) + lineWeight (lineD lines r) =
      dirtyCount lines + lineWeight x :=
  sum_map_set lineWeight initLine lines r x hr

theorem accessSet_dirty_step (lines : List Line) (tag : Nat) (op : Char)
    (num : Nat) (hne : 0 < lines.length)
    (hclean : ∀ j, j < lines.length → (lineD lines j).validbit = false →
      (lineD lines j).dirtybit = false) :
    dirtyCount (accessSet lines tag op num).1 +
        (if (accessSet lines tag op num).2.evictedDirty = true then 1 else 0) =
      dirtyCount lines +
        (if (accessSet lines tag op num).2.becameDirty = true then 1 else 0) ∧
    (∀ j, j < lines.length →
      (lineD (accessSet lines tag op num).1 j).validbit = false →
      (lineD (accessSet lines tag op num).1 j).dirtybit = false) := by
  cases hscan : scanLoop lines tag 0 num 0 with
  | hit r =>
    obtain ⟨k, hk, hrk, hv, ht, hpre⟩ := scanLoop_hit_inv _ _ _ _ _ _ hscan
    have hkr : k = r := by omega
    subst hkr
    have hr : k < lines.length := hk
    obtain ⟨heq1, heq2⟩ := accessSet_hit_eq lines tag op num k hscan
    have hs := sum_lineWeight_set lines k (hitLine (lineD lines k) op num) hr
    constructor
    · by_cases hP : op = 'S' ∧ (lineD lines k).dirtybit = false
      · rw [heq1, heq2, if_pos hP]
        have hwold : lineWeight (lineD lines k) = 0 := by
          simp [lineWeight, hP.2]
        have hwnew : lineWeight (hitLine (lineD lines k) op num) = 1 := by
          unfold hitLine
          rw [if_pos hP]
          simp [lineWeight]
          exact hv
        rw [hwold, hwnew] at hs
        simp
        omega
      · rw [heq1, heq2, if_neg hP]
        have hwnew : lineWeight (hitLine (lineD lines k) op num) =
            lineWeight (lineD lines k) := by
          unfold hitLine
          rw [if_neg hP]
          simp [lineWeight]
        rw [hwnew] at hs
        simp
        omega
    · intro j hj hvj
      rw [heq1] at hvj ⊢
      by_cases hjr : j = k
      · subst hjr
        rw [show lineD (lines.set j _) j = _ from
          getD_set_self _ _ _ _ hr, hitLine_validbit] at hvj
        rw [hv] at hvj
        cases hvj
      · rw [show lineD (lines.set k _) j = lineD lines j from
          getD_set_ne _ _ _ _ _ (fun he => hjr he.symm)] at hvj ⊢
        exact hclean j hj hvj
  | cold r =>
    obtain ⟨k, hk, hrk, hv, hpre⟩ := scanLoop_cold_inv _ _ _ _ _ _ hscan
    have hkr : k = r := by omega
    subst hkr
    have hr : k < lines.length := hk
    obtain ⟨heq1, heq2⟩ := accessSet_cold_eq lines tag op num k hscan
    have hdirty : (lineD lines k).dirtybit = false := hclean k hr hv
    have hs := sum_lineWeight_set lines k (coldLine (lineD lines k) tag op num) hr
    have hwold : lineWeight (lineD lines k) = 0 := by
      simp [lineWeight, hv]
    constructor
    · by_cases hP : op = 'S'
      · rw [heq1, heq2, if_pos hP]
        have hwnew : lineWeight (coldLine (lineD lines k) tag op num) = 1 := by
          unfold coldLine
          rw [if_pos hP]
          simp [lineWeight]
        rw [hwold, hwnew] at hs
        simp
        omega
      · rw [heq1, heq2, if_neg hP]
        have hwnew : lineWeight (coldLine (lineD lines k) tag op num) = 0 := by
          unfold coldLine
          rw [if_neg hP]
          simp [lineWeight, hdirty]
        rw [hwold, hwnew] at hs
        simp
        omega
    · intro j hj hvj
      rw [heq1] at hvj ⊢
      by_cases hjr : j = k
      · subst hjr
        rw [show lineD (lines.set j _) j = _ from
          getD_set_self _ _ _ _ hr, coldLine_validbit] at hvj
        cases hvj
      · rw [show lineD (lines.set k _) j = lineD lines j from
          getD_set_ne _ _ _ _ _ (fun he => hjr he.symm)] at hvj ⊢
        exact hclean j hj hvj
  | full r =>
    obtain ⟨hall, hrange⟩ := scanLoop_full_inv _ _ _ _ _ _ hscan
    have hr : r < lines.length := by
      rcases hrange with hr0 | ⟨k, hk, hrk⟩ <;> omega
    obtain ⟨heq1, heq2⟩ := accessSet_full_eq lines tag op num r hscan
    have hvr : (lineD lines r).validbit = true := (hall r hr).1
    have hs := sum_lineWeight_set lines r (fullLine (lineD lines r) tag op num) hr
    have hwold : lineWeight (lineD lines r) =
        (if (lineD lines r).dirtybit = true then 1 else 0) := by
      simp [lineWeight, hvr]
    constructor
    · by_cases hP : op = 'S'
      · rw [heq1, heq2, if_pos hP]
        have hwnew : lineWeight (fullLine (lineD lines r) tag op num) = 1 := by
          unfold fullLine
          rw [if_pos hP]
          simp [lineWeight]
          exact hvr
        rw [hwnew, hwold] at hs
        cases hd : (lineD lines r).dirtybit <;>
          simp [hd] at hs ⊢ <;> omega
      · rw [heq1, heq2, if_neg hP]
        have hwnew : lineWeight (fullLine (lineD lines r) tag op num) = 0 := by
          unfold fullLine
          rw [if_neg hP]
          simp [lineWeight]
        rw [hwnew, hwold] at hs
        cases hd : (lineD lines r).dirtybit <;>
          simp [hd] at hs ⊢ <;> omega
    · intro j hj hvj
      rw [heq1] at hvj ⊢
      by_cases hjr : j = r
      · subst hjr
        rw [show lineD (lines.set j _) j = _ from
          getD_set_self _ _ _ _ hr, fullLine_validbit] at hvj
        rw [hvr] at hvj
        cases hvj
      · rw [show lineD (lines.set r _) j = lineD lines j from
          getD_set_ne _ _ _ _ _ (fun he => hjr he.symm)] at hvj ⊢
        exact hclean j hj hvj

theorem isInCache_dirty_step (address : Nat) (c : Cache) (op : Char)
    (num : Nat) (hwf : wf c) (hE : 1 ≤ c.E) (hclean : cleanInvalid c) :
    dirtyValidCount (isInCache address c op num).1 +
        (if (isInCache address c op num).2.evictedDirty = true then 1 else 0) =
      dirtyValidCount c +
        (if (isInCache address c op num).2.becameDirty = true then 1 else 0) ∧
    cleanInvalid (isInCache address c op num).1 := by
  have hsetlt : setOf c address < c.sets.length := by
    rw [hwf.1]; exact setOf_lt c address
  have hlen : (c.sets.getD (setOf c address) []).length = c.E :=
    hwf.2 _ hsetlt
  have hcleanset : ∀ j, j < (c.sets.getD (setOf c address) []).length →
      (lineD (c.sets.getD (setOf c address) []) j).validbit = false →
      (lineD (c.sets.getD (setOf c address) []) j).dirtybit = false :=
    fun j hj => hclean _ hsetlt j hj
  obtain ⟨hcnt, hcleanOut⟩ := accessSet_dirty_step
    (c.sets.getD (setOf c address) []) (tagOf c address) op num
    (by omega) hcleanset
  have houter := sum_map_set dirtyCount ([] : List Line) c.sets
    (setOf c address)
    (accessSet (c.sets.getD (setOf c address) []) (tagOf c address) op num).1
    hsetlt
  constructor
  · have hdvc : dirtyValidCount (isInCache address c op num).1 =
        ((c.sets.set (setOf c address)
          (accessSet (c.sets.getD (setOf c address) [])
            (tagOf c address) op num).1).map dirtyCount).sum := rfl
    have hout : (isInCache address c op num).2 =
        (accessSet (c.sets.getD (setOf c address) [])
          (tagOf c address) op num).2 := rfl
    rw [hdvc, hout]
    have hdvc2 : dirtyValidCount c = (c.sets.map dirtyCount).sum := rfl
    rw [hdvc2]
    omega
  · intro i hi j hj hvj
    have hsets : (isInCache address c op num).1.sets =
        c.sets.set (setOf c address)
          (accessSet (c.sets.getD (setOf c address) [])
            (tagOf c address) op num).1 := rfl
    rw [hsets] at hi hj hvj ⊢
    rw [List.length_set] at hi
    by_cases he : setOf c address = i
    · subst he
      rw [getD_set_self _ _ _ _ hsetlt] at hj hvj ⊢
      rw [accessSet_length] at hj
      exact hcleanOut j hj hvj
    · rw [getD_set_ne _ _ _ _ _ he] at hj hvj ⊢
      exact hclean i hi j hj hvj

theorem replayFrom_B (rs : List AccessRecord) :
    ∀ (c : Cache) (st : Stats) (n : Nat),
      (replayFrom c st n rs).1.B = c.B := by
  induction rs with
  | nil => intro c st n; rfl
  | cons r rs ih => intro c st n; exact ih _ _ _

theorem replayFrom_dirty_inv (rs : List AccessRecord) :
    ∀ (c : Cache) (st : Stats) (n : Nat), wf c → 1 ≤ c.E → cleanInvalid c →
      st.dirty_bytes = (c.B : Int) * dirtyValidCount c →
      wf (replayFrom c st n rs).1 ∧ cleanInvalid (replayFrom c st n rs).1 ∧
        (replayFrom c st n rs).2.dirty_bytes =
          (c.B : Int) * dirtyValidCount (replayFrom c st n rs).1 := by
  induction rs with
  | nil => intro c st n hwf hE hclean hdb; exact ⟨hwf, hclean, hdb⟩
  | cons r rs ih =>
    intro c st n hwf hE hclean hdb
    rw [replayFrom]
    have hwf1 := isInCache_wf r.address c r.instruction n hwf
    obtain ⟨hcnt, hclean1⟩ :=
      isInCache_dirty_step r.address c r.instruction n hwf hE hclean
    have hdb1 : (applyOutcome st (isInCache r.address c r.instruction n).2
        c.B).dirty_bytes =
        (c.B : Int) *
          dirtyValidCount (isInCache r.address c r.instruction n).1 := by
      rw [applyOutcome_dirty_bytes, hdb]
      cases hbc : (isInCache r.address c r.instruction n).2.becameDirty <;>
        cases hev : (isInCache r.address c r.instruction n).2.evictedDirty <;>
        simp only [hbc, hev] at hcnt ⊢ <;>
        simp at hcnt ⊢
      · -- no dirty change
        have hcnat : dirtyValidCount (isInCache r.address c r.instruction n).1 =
            dirtyValidCount c := by omega
        exact Or.inl hcnat.symm
      · -- a dirty line was evicted, nothing became dirty
        have hcnat : dirtyValidCount (isInCache r.address c r.instruction n).1
            + 1 = dirtyValidCount c := by omega
        have hc : ((dirtyValidCount
            (isInCache r.address c r.instruction n).1 : Nat) : Int) + 1 =
            ((dirtyValidCount c : Nat) : Int) := by exact_mod_cast hcnat
        linear_combination (-(c.B : Int)) * hc
      · -- a line became dirty, no dirty line evicted
        have hcnat : dirtyValidCount (isInCache r.address c r.instruction n).1 =
            dirtyValidCount c + 1 := by omega
        have hc : ((dirtyValidCount
            (isInCache r.address c r.instruction n).1 : Nat) : Int) =
            ((dirtyValidCount c : Nat) : Int) + 1 := by exact_mod_cast hcnat
        linear_combination (-(c.B : Int)) * hc
      · -- both: the counts balance
        have hcnat : dirtyValidCount (isInCache r.address c r.instruction n).1 =
            dirtyValidCount c := by omega
        exact Or.inl hcnat.symm
    exact ih (isInCache r.address c r.instruction n).1
      (applyOutcome st (isInCache r.address c r.instruction n).2 c.B)
      (n + 1) hwf1 hE hclean1 hdb1

/-- C3: at every point during replay (each prefix of the record list being a
point), `dirty_bytes` equals `B` times the number of currently valid dirty
lines in the whole cache, and is therefore non-negative. -/
theorem claim3_dirty_bytes_invariant (s E b : Nat)
    (recs : List AccessRecord) (hE : 1 ≤ E) :
    (replay (makeCache s E b) recs).2.dirty_bytes =
      ((replay (makeCache s E b) recs).1.B : Int) *
        dirtyValidCount ((replay (makeCache s E b) recs).1) ∧
    0 ≤ (replay (makeCache s E b) recs).2.dirty_bytes := by
  have h := replayFrom_dirty_inv recs (makeCache s E b) initStats 0
    (wf_makeCache s E b) hE (cleanInvalid_makeCache s E b)
    (by rw [dirtyValidCount_makeCache]; simp [initStats])
  have hdb := h.2.2
  unfold replay
  have hB : (replayFrom (makeCache s E b) initStats 0 recs).1.B =
      (makeCache s E b).B := replayFrom_B recs _ _ _
  rw [hB]
  refine ⟨hdb, ?_⟩
  rw [hdb]
  positivity

/-- C3 witness: one store into an empty direct-mapped cache. -/
theorem claim3_witness :
    ((1 : Nat) ≤ 1) ∧
      ((replay (makeCache 0 1 3) [⟨'S', 0x0, 1⟩]).2.dirty_bytes =
        ((replay (makeCache 0 1 3) [⟨'S', 0x0, 1⟩]).1.B : Int) *
          dirtyValidCount ((replay (makeCache 0 1 3) [⟨'S', 0x0, 1⟩]).1) ∧
      0 ≤ (replay (makeCache 0 1 3) [⟨'S', 0x0, 1⟩]).2.dirty_bytes) :=
  ⟨by decide, claim3_dirty_bytes_invariant 0 1 3 [⟨'S', 0x0, 1⟩] (by decide)⟩

/-! ### Claims C8 and C10: per-set structural invariants -/

/-- The valid lines of a set form a prefix of the slot order. -/
def linesPfxValid (ls : List Line) : Prop :=
  ∀ j k, j ≤ k → k < ls.length → (lineD ls k).validbit = true →
    (lineD ls j).validbit = true

/-- No two valid lines of a set carry the same tag. -/
def linesNoDupTags (ls : List Line) : Prop :=
  ∀ j k, j < k → k < ls.length → (lineD ls j).validbit = true →
    (lineD ls k).validbit = true →
    (lineD ls j).tagbits ≠ (lineD ls k).tagbits

/-- Every set of the cache satisfies `linesPfxValid`. -/
def validPrefixInv (c : Cache) : Prop :=
  ∀ i, i < c.sets.length → linesPfxValid (c.sets.getD i [])

/-- Every set of the cache satisfies `linesNoDupTags`. -/
def noDupTagsInv (c : Cache) : Prop :=
  ∀ i, i < c.sets.length → linesNoDupTags (c.sets.getD i [])

theorem accessSet_inv_step (lines : List Line) (tag : Nat) (op : Char)
    (num : Nat) (hpfx : linesPfxValid lines) :
    linesPfxValid (accessSet lines tag op num).1 ∧
    (linesNoDupTags lines → linesNoDupTags (accessSet lines tag op num).1) := by
  rcases Nat.eq_zero_or_pos lines.length with hlen0 | hpos
  · constructor
    · intro j m hjm hm
      rw [accessSet_length] at hm
      omega
    · intro _ j m hjm hm
      rw [accessSet_length] at hm
      omega
  cases hscan : scanLoop lines tag 0 num 0 with
  | hit r =>
    obtain ⟨k, hk, hrk, hv, ht, hpre⟩ := scanLoop_hit_inv _ _ _ _ _ _ hscan
    have hkr : k = r := by omega
    subst hkr
    obtain ⟨heq1, _⟩ := accessSet_hit_eq lines tag op num k hscan
    rw [heq1]
    have hvt : ∀ j,
        (lineD (lines.set k (hitLine (lineD lines k) op num)) j).validbit =
          (lineD lines j).validbit ∧
        (lineD (lines.set k (hitLine (lineD lines k) op num)) j).tagbits =
          (lineD lines j).tagbits := by
      intro j
      by_cases hjk : j = k
      · subst hjk
        rw [show lineD (lines.set j (hitLine (lineD lines j) op num)) j = _
            from getD_set_self _ _ _ _ hk,
          hitLine_validbit, hitLine_tagbits]
        exact ⟨rfl, rfl⟩
      · rw [show lineD (lines.set k (hitLine (lineD lines k) op num)) j =
            lineD lines j from getD_set_ne _ _ _ _ _ (fun he => hjk he.symm)]
        exact ⟨rfl, rfl⟩
    refine ⟨?_, fun hdup => ?_⟩
    · intro j m hjm hm hvm
      rw [List.length_set] at hm
      rw [(hvt j).1]
      rw [(hvt m).1] at hvm
      exact hpfx j m hjm hm hvm
    · intro j m hjm hm hvj hvm
      rw [List.length_set] at hm
      rw [(hvt j).1] at hvj
      rw [(hvt m).1] at hvm
      rw [(hvt j).2, (hvt m).2]
      exact hdup j m hjm hm hvj hvm
  | cold r =>
    obtain ⟨k, hk, hrk, hv, hpre⟩ := scanLoop_cold_inv _ _ _ _ _ _ hscan
    have hkr : k = r := by omega
    subst hkr
    obtain ⟨heq1, _⟩ := accessSet_cold_eq lines tag op num k hscan
    rw [heq1]
    have hinvHigh : ∀ m, k ≤ m → m < lines.length →
        (lineD lines m).validbit = false := by
      intro m hkm hm
      cases hvm : (lineD lines m).validbit
      · rfl
      · have := hpfx k m hkm hm hvm
        rw [this] at hv
        cases hv
    refine ⟨?_, fun hdup => ?_⟩
    · intro j m hjm hm hvm
      rw [List.length_set] at hm
      by_cases hjk : j = k
      · subst hjk
        rw [show lineD (lines.set j (coldLine (lineD lines j) tag op num)) j =
            _ from getD_set_self _ _ _ _ hk, coldLine_validbit]
      · rw [show lineD (lines.set k (coldLine (lineD lines k) tag op num)) j =
            lineD lines j from getD_set_ne _ _ _ _ _ (fun he => hjk he.symm)]
        by_cases hmk : m = k
        · exact (hpre j (by omega)).1
        · have hvm2 : (lineD lines m).validbit = true := by
            rw [show lineD (lines.set k (coldLine (lineD lines k) tag op num))
                m = lineD lines m from
              getD_set_ne _ _ _ _ _ (fun he => hmk he.symm)] at hvm
            exact hvm
          have hmk2 : m < k := by
            by_contra hge
            have := hinvHigh m (by omega) hm
            rw [this] at hvm2
            cases hvm2
          exact (hpre j (by omega)).1
    · intro j m hjm hm hvj hvm
      rw [List.length_set] at hm
      by_cases hmk : m = k
      · subst hmk
        rw [show lineD (lines.set m (coldLine (lineD lines m) tag op num)) j =
            lineD lines j from getD_set_ne _ _ _ _ _ (by omega),
          show lineD (lines.set m (coldLine (lineD lines m) tag op num)) m =
            _ from getD_set_self _ _ _ _ hk, coldLine_tagbits]
        exact (hpre j (by omega)).2
      · by_cases hjk : j = k
        · subst hjk
          have hvm2 : (lineD lines m).validbit = true := by
            rw [show lineD (lines.set j (coldLine (lineD lines j) tag op num))
                m = lineD lines m from
              getD_set_ne _ _ _ _ _ (fun he => hmk he.symm)] at hvm
            exact hvm
          have := hinvHigh m (by omega) hm
          rw [this] at hvm2
          cases hvm2
        · have hvm2 : (lineD lines m).validbit = true := by
            rw [show lineD (lines.set k (coldLine (lineD lines k) tag op num))
                m = lineD lines m from
              getD_set_ne _ _ _ _ _ (fun he => hmk he.symm)] at hvm
            exact hvm
          have hvj2 : (lineD lines j).validbit = true := by
            rw [show lineD (lines.set k (coldLine (lineD lines k) tag op num))
                j = lineD lines j from
              getD_set_ne _ _ _ _ _ (fun he => hjk he.symm)] at hvj
            exact hvj
          rw [show lineD (lines.set k (coldLine (lineD lines k) tag op num))
              j = lineD lines j from
            getD_set_ne _ _ _ _ _ (fun he => hjk he.symm),
            show lineD (lines.set k (coldLine (lineD lines k) tag op num))
              m = lineD lines m from
            getD_set_ne _ _ _ _ _ (fun he => hmk he.symm)]
          exact hdup j m hjm hm hvj2 hvm2
  | full r =>
    obtain ⟨hall, hrange⟩ := scanLoop_full_inv _ _ _ _ _ _ hscan
    have hr : r < lines.length := by
      rcases hrange with hr0 | ⟨k, hk, hrk⟩ <;> omega
    obtain ⟨heq1, _⟩ := accessSet_full_eq lines tag op num r hscan
    rw [heq1]
    have hval2 : ∀ j, j < lines.length →
        (lineD (lines.set r (fullLine (lineD lines r) tag op num))
          j).validbit = true := by
      intro j hj
      by_cases hjr : j = r
      · subst hjr
        rw [show lineD (lines.set j (fullLine (lineD lines j) tag op num)) j =
            _ from getD_set_self _ _ _ _ hr, fullLine_validbit]
        exact (hall j hj).1
      · rw [show lineD (lines.set r (fullLine (lineD lines r) tag op num)) j =
            lineD lines j from getD_set_ne _ _ _ _ _ (fun he => hjr he.symm)]
        exact (hall j hj).1
    refine ⟨?_, fun hdup => ?_⟩
    · intro j m hjm hm _
      rw [List.length_set] at hm
      exact hval2 j (by omega)
    · intro j m hjm hm hvj hvm
      rw [List.length_set] at hm
      by_cases hjr : j = r
      · subst hjr
        rw [show lineD (lines.set j (fullLine (lineD lines j) tag op num)) j =
            _ from getD_set_self _ _ _ _ hr, fullLine_tagbits,
          show lineD (lines.set j (fullLine (lineD lines j) tag op num)) m =
            lineD lines m from getD_set_ne _ _ _ _ _ (by omega)]
        exact fun he => (hall m hm).2 he.symm
      · by_cases hmr : m = r
        · subst hmr
          rw [show lineD (lines.set m (fullLine (lineD lines m) tag op num))
              j = lineD lines j from getD_set_ne _ _ _ _ _ (by omega),
            show lineD (lines.set m (fullLine (lineD lines m) tag op num)) m =
              _ from getD_set_self _ _ _ _ hr, fullLine_tagbits]
          exact (hall j (by omega)).2
        · rw [show lineD (lines.set r (fullLine (lineD lines r) tag op num))
              j = lineD lines j from
            getD_set_ne _ _ _ _ _ (fun he => hjr he.symm),
            show lineD (lines.set r (fullLine (lineD lines r) tag op num))
              m = lineD lines m from
            getD_set_ne _ _ _ _ _ (fun he => hmr he.symm)]
          have hvj2 : (lineD lines j).validbit = true := by
            rw [show lineD (lines.set r (fullLine (lineD lines r) tag op num))
                j = lineD lines j from
              getD_set_ne _ _ _ _ _ (fun he => hjr he.symm)] at hvj
            exact hvj
          have hvm2 : (lineD lines m).validbit = true := by
            rw [show lineD (lines.set r (fullLine (lineD lines r) tag op num))
                m = lineD lines m from
              getD_set_ne _ _ _ _ _ (fun he => hmr he.symm)] at hvm
            exact hvm
          exact hdup j m hjm hm hvj2 hvm2

theorem isInCache_inv_step (address : Nat) (c : Cache) (op : Char)
    (num : Nat) (hwf : wf c) (hpfx : validPrefixInv c) :
    validPrefixInv (isInCache address c op num).1 ∧
    (noDupTagsInv c → noDupTagsInv (isInCache address c op num).1) := by
  have hsetlt : setOf c address < c.sets.length := by
    rw [hwf.1]; exact setOf_lt c address
  have hsets : (isInCache address c op num).1.sets =
      c.sets.set (setOf c address)
        (accessSet (c.sets.getD (setOf c address) [])
          (tagOf c address) op num).1 := rfl
  obtain ⟨hp, hd⟩ := accessSet_inv_step (c.sets.getD (setOf c address) [])
    (tagOf c address) op num (hpfx _ hsetlt)
  constructor
  · intro i hi
    rw [hsets] at hi ⊢
    rw [List.length_set] at hi
    by_cases he : setOf c address = i
    · subst he
      rw [getD_set_self _ _ _ _ hsetlt]
      exact hp
    · rw [getD_set_ne _ _ _ _ _ he]
      exact hpfx i hi
  · intro hdup i hi
    rw [hsets] at hi ⊢
    rw [List.length_set] at hi
    by_cases he : setOf c address = i
    · subst he
      rw [getD_set_self _ _ _ _ hsetlt]
      exact hd (hdup _ hsetlt)
    · rw [getD_set_ne _ _ _ _ _ he]
      exact hdup i hi

theorem validPrefixInv_makeCache (s E b : Nat) :
    validPrefixInv (makeCache s E b) := by
  intro i hi j k hjk hk hvk
  have hset : (makeCache s E b).sets.getD i [] = List.replicate E initLine := by
    rw [makeCache]
    exact getD_replicate _ _ _ _ (by simpa [makeCache] using hi)
  rw [hset] at hk hvk
  rw [show lineD (List.replicate E initLine) k = initLine from
    getD_replicate _ _ _ _ (by simpa using hk)] at hvk
  cases hvk

theorem noDupTagsInv_makeCache (s E b : Nat) :
    noDupTagsInv (makeCache s E b) := by
  intro i hi j k hjk hk hvj hvk
  have hset : (makeCache s E b).sets.getD i [] = List.replicate E initLine := by
    rw [makeCache]
    exact getD_replicate _ _ _ _ (by simpa [makeCache] using hi)
  rw [hset] at hk hvk
  rw [show lineD (List.replicate E initLine) k = initLine from
    getD_replicate _ _ _ _ (by simpa using hk)] at hvk
  cases hvk

theorem replayFrom_inv (rs : List AccessRecord) :
    ∀ (c : Cache) (st : Stats) (n : Nat),
      wf c → validPrefixInv c → noDupTagsInv c →
      wf (replayFrom c st n rs).1 ∧
        validPrefixInv (replayFrom c st n rs).1 ∧
        noDupTagsInv (replayFrom c st n rs).1 := by
  induction rs with
  | nil => intro c st n hwf hpfx hdup; exact ⟨hwf, hpfx, hdup⟩
  | cons r rs ih =>
    intro c st n hwf hpfx hdup
    rw [replayFrom]
    obtain ⟨hp, hd⟩ :=
      isInCache_inv_step r.address c r.instruction n hwf hpfx
    exact ih _ _ _ (isInCache_wf r.address c r.instruction n hwf) hp (hd hdup)

/-- C8: in every state reachable from the initial all-invalid cache by
replaying any record list, at most one valid line per set carries a given
tag, and the access operation preserves this invariant (given the
valid-prefix invariant, which also holds in every reachable state). -/
theorem claim8_no_duplicate_tags :
    (∀ (s E b : Nat) (recs : List AccessRecord),
      noDupTagsInv ((replay (makeCache s E b) recs).1)) ∧
    (∀ (address : Nat) (c : Cache) (op : Char) (num : Nat),
      wf c → validPrefixInv c → noDupTagsInv c →
      noDupTagsInv (isInCache address c op num).1) := by
  constructor
  · intro s E b recs
    exact (replayFrom_inv recs (makeCache s E b) initStats 0
      (wf_makeCache s E b) (validPrefixInv_makeCache s E b)
      (noDupTagsInv_makeCache s E b)).2.2
  · intro address c op num hwf hpfx hdup
    exact (isInCache_inv_step address c op num hwf hpfx).2 hdup

/-- C10: in every state reachable from the initial all-invalid cache by
replaying any record list, the valid lines of each set form a prefix of the
slot order (if line `k` is valid, every line `j ≤ k` is valid), and the
access operation preserves this invariant.  This is what makes the scan's
early exit at the first invalid line equivalent to checking every line. -/
theorem claim10_valid_lines_form_prefix :
    (∀ (s E b : Nat) (recs : List AccessRecord),
      validPrefixInv ((replay (makeCache s E b) recs).1)) ∧
    (∀ (address : Nat) (c : Cache) (op : Char) (num : Nat),
      wf c → validPrefixInv c →
      validPrefixInv (isInCache address c op num).1) := by
  constructor
  · intro s E b recs
    exact (replayFrom_inv recs (makeCache s E b) initStats 0
      (wf_makeCache s E b) (validPrefixInv_makeCache s E b)
      (noDupTagsInv_makeCache s E b)).2.1
  · intro address c op num hwf hpfx
    exact (isInCache_inv_step address c op num hwf hpfx).1

end Csim
